import Mathlib

/-!
# Leave-request backend: shallow embedding

A shallow embedding of the leave-request rule engine of
`LeaveRequestBackend` (the ASP.NET controller `LeaveRequestsController`
together with the model types of `Models/LeaveRequest.cs`).

Calendar dates are modelled as integers counting days (the code works at
calendar-date granularity: `DateTime.Today`, `(end - start).TotalDays`).
The Entity Framework store is modelled as explicit lists of records, and
each controller action as a function from the store (plus the action's
inputs) to `Except` of an error or the updated store.
-/

namespace LeaveRequestBackend

/-- `public enum LeaveStatus { Pending, Approved, Rejected }` -/
inductive LeaveStatus where
  | Pending
  | Approved
  | Rejected
deriving DecidableEq, Repr

/-- `public enum Role { Employee, Manager }` -/
inductive Role where
  | Employee
  | Manager
deriving DecidableEq, Repr

/-- `public class Employee` (id, name, email, role). -/
structure Employee where
  id : Int
  name : String
  email : String
  role : Role
deriving DecidableEq, Repr

/-- `public class LeaveRequest`: dates are calendar days as integers. -/
structure LeaveRequest where
  id : Int
  employeeId : Int
  startDate : Int
  endDate : Int
  status : LeaveStatus
  reason : String
deriving DecidableEq, Repr

/-- `AppDbContext`: the durable store (`DbSet<Employee>`,
`DbSet<LeaveRequest>`), plus the id the database would assign to the next
inserted leave request. -/
structure AppDbContext where
  employees : List Employee
  leaveRequests : List LeaveRequest
  nextId : Int
deriving DecidableEq, Repr

/-- The controller results we need: `NotFound(msg)`, `BadRequest(msg)`,
`Unauthorized()`. -/
inductive ApiError where
  | NotFound (msg : String)
  | BadRequest (msg : String)
  | Unauthorized
deriving DecidableEq, Repr

/-- `_context.Employees.FindAsync(id)`: lookup by primary key. -/
def findEmployee (ctx : AppDbContext) (id : Int) : Option Employee :=
  ctx.employees.find? (fun e => e.id == id)

/-- `_context.LeaveRequests.FindAsync(id)`: lookup by primary key. -/
def findLeaveRequest (ctx : AppDbContext) (id : Int) : Option LeaveRequest :=
  ctx.leaveRequests.find? (fun lr => lr.id == id)

/-- `CreateLeaveRequestDto`: the POST body. -/
structure CreateLeaveRequestDto where
  employeeId : Int
  startDate : Int
  endDate : Int
  reason : String
deriving DecidableEq, Repr

/-- The overlap query of `CreateLeaveRequest`:
`_context.LeaveRequests.AnyAsync(lr => lr.EmployeeId == dto.EmployeeId &&
lr.Status == LeaveStatus.Approved && lr.StartDate <= dto.EndDate &&
lr.EndDate >= dto.StartDate)`. -/
def overlapsApproved (ctx : AppDbContext) (dto : CreateLeaveRequestDto) : Bool :=
  ctx.leaveRequests.any (fun lr =>
    lr.employeeId == dto.employeeId &&
    lr.status == LeaveStatus.Approved &&
    decide (lr.startDate ≤ dto.endDate) &&
    decide (lr.endDate ≥ dto.startDate))

/-- `POST /api/leaverequests` — `CreateLeaveRequest(dto)`. `today` is
`DateTime.Today` as a day number. On success returns the updated store and
the created record. -/
def createLeaveRequest (today : Int) (ctx : AppDbContext)
    (dto : CreateLeaveRequestDto) :
    Except ApiError (AppDbContext × LeaveRequest) :=
  match findEmployee ctx dto.employeeId with
  | none => .error (.NotFound "Employee not found")
  | some _employee =>
    if dto.startDate ≥ dto.endDate then
      .error (.BadRequest "End date must be after start date")
    else if dto.startDate < today then
      .error (.BadRequest "Cannot create requests for past dates")
    else
      -- var duration = (dto.EndDate - dto.StartDate).TotalDays + 1;
      let duration : Int := (dto.endDate - dto.startDate) + 1
      if overlapsApproved ctx dto then
        .error (.BadRequest "Overlapping approved leave exists for this period")
      else
        -- var status = duration > 15 ? LeaveStatus.Rejected : LeaveStatus.Pending;
        let status := if duration > 15 then LeaveStatus.Rejected else LeaveStatus.Pending
        let request : LeaveRequest :=
          { id := ctx.nextId, employeeId := dto.employeeId,
            startDate := dto.startDate, endDate := dto.endDate,
            status := status, reason := dto.reason }
        .ok ({ ctx with
                leaveRequests := ctx.leaveRequests ++ [request],
                nextId := ctx.nextId + 1 },
             request)

/-- ASCII case folding of a character code, enough for the enum member
names compared by `Enum.TryParse`'s ignore-case mode. -/
def foldCase (n : Nat) : Nat :=
  if 65 ≤ n ∧ n ≤ 90 then n + 32 else n

/-- Case-insensitive string comparison (ordinal, ASCII range). -/
def eqIgnoreCase (s t : String) : Bool :=
  s.data.map (fun c => foldCase c.toNat) == t.data.map (fun c => foldCase c.toNat)

/-- `Enum.TryParse<LeaveStatus>(statusString, ignoreCase: true, out status)`:
accepts any member name of `LeaveStatus` case-insensitively, and the decimal
string of a defined member's underlying value. (.NET would also accept other
integer strings as values outside the defined members; such undefined enum
values are not representable here and the operations below never produce
them, so they are omitted.) -/
def parseLeaveStatus (s : String) : Option LeaveStatus :=
  if eqIgnoreCase s "Pending" || s == "0" then some LeaveStatus.Pending
  else if eqIgnoreCase s "Approved" || s == "1" then some LeaveStatus.Approved
  else if eqIgnoreCase s "Rejected" || s == "2" then some LeaveStatus.Rejected
  else none

/-- Writing the tracked entity back through `SaveChangesAsync`: the stored
record with the given id gets the new status; every other record is kept. -/
def setRequestStatus (l : List LeaveRequest) (id : Int) (st : LeaveStatus) :
    List LeaveRequest :=
  l.map (fun lr => if lr.id == id then { lr with status := st } else lr)

/-- `PUT /api/leaverequests/{id}?managerId=..` — `UpdateLeaveStatus`. -/
def updateLeaveStatus (ctx : AppDbContext) (id : Int) (managerId : Int)
    (statusString : String) : Except ApiError AppDbContext :=
  match findEmployee ctx managerId with
  | none => .error .Unauthorized
  | some manager =>
    if manager.role ≠ Role.Manager then .error .Unauthorized
    else
      match findLeaveRequest ctx id with
      | none => .error (.NotFound "")
      | some request =>
        match parseLeaveStatus statusString with
        | none => .error (.BadRequest "Invalid status. Must be 'Approved' or 'Rejected'.")
        | some status =>
          -- var duration = (request.EndDate - request.StartDate).TotalDays;
          let duration : Int := request.endDate - request.startDate
          -- both branches of the source's duration check assign the same value
          if duration > 15 ∧ status = LeaveStatus.Approved then
            .ok { ctx with leaveRequests := setRequestStatus ctx.leaveRequests id status }
          else
            .ok { ctx with leaveRequests := setRequestStatus ctx.leaveRequests id status }

/-- `DELETE /api/leaverequests/{id}?employeeId=..` — `CancelLeaveRequest`. -/
def cancelLeaveRequest (ctx : AppDbContext) (id : Int) (employeeId : Int) :
    Except ApiError AppDbContext :=
  match findLeaveRequest ctx id with
  | none => .error .Unauthorized
  | some request =>
    if request.employeeId ≠ employeeId then .error .Unauthorized
    else if request.status ≠ LeaveStatus.Pending then
      .error (.BadRequest "Only pending requests can be canceled")
    else
      .ok { ctx with leaveRequests := ctx.leaveRequests.eraseP (fun lr => lr.id == id) }

/-- `DELETE /api/leaverequests/{id}/permanent?managerId=..` —
`PermanentlyDeleteRequest`. -/
def permanentlyDeleteRequest (ctx : AppDbContext) (id : Int) (managerId : Int) :
    Except ApiError AppDbContext :=
  match findEmployee ctx managerId with
  | none => .error .Unauthorized
  | some manager =>
    if manager.role ≠ Role.Manager then .error .Unauthorized
    else
      match findLeaveRequest ctx id with
      | none => .error (.NotFound "")
      | some _request =>
        .ok { ctx with leaveRequests := ctx.leaveRequests.eraseP (fun lr => lr.id == id) }

/-- `.OrderByDescending(lr => lr.StartDate)`: a stable sort placing larger
start dates first. -/
def orderByStartDateDescending (l : List LeaveRequest) : List LeaveRequest :=
  l.mergeSort (fun a b => decide (b.startDate ≤ a.startDate))

/-- `GET /api/leaverequests?employeeId=..` — `GetLeaveRequests`. The query
parameter `int? employeeId` is an `Option Int`. -/
def getLeaveRequests (ctx : AppDbContext) (employeeId : Option Int) :
    Except ApiError (List LeaveRequest) :=
  match employeeId with
  | none => .ok (orderByStartDateDescending ctx.leaveRequests)
  | some eid =>
    match findEmployee ctx eid with
    | none => .error (.NotFound "Employee not found")
    | some employee =>
      if employee.role == Role.Manager then
        .ok (orderByStartDateDescending ctx.leaveRequests)
      else
        .ok (orderByStartDateDescending
              (ctx.leaveRequests.filter (fun lr => lr.employeeId == eid)))

/-! ## Concrete fixtures

Small concrete stores mirroring the seed data (`SeedData.Initialize`): one
`Employee`-role record and one `Manager`-role record. -/

/-- Seed employee "Alex Employee" (role `Employee`). -/
def empAlex : Employee :=
  { id := 1, name := "Alex Employee", email := "alex@company.com", role := Role.Employee }

/-- Seed employee "Morgan Manager" (role `Manager`). -/
def mgrMorgan : Employee :=
  { id := 2, name := "Morgan Manager", email := "morgan@company.com", role := Role.Manager }

/-- A store with the two seed employees and no leave requests. -/
def ctx0 : AppDbContext :=
  { employees := [empAlex, mgrMorgan], leaveRequests := [], nextId := 1 }

/-- A creation request by employee 1 from day 0 to day `d`. -/
def dtoDays (d : Int) : CreateLeaveRequestDto :=
  { employeeId := 1, startDate := 0, endDate := d, reason := "leave" }

/-- The record `createLeaveRequest` builds for `dtoDays d` in `ctx0` with the
status it computes. -/
def reqDays (d : Int) (st : LeaveStatus) : LeaveRequest :=
  { id := 1, employeeId := 1, startDate := 0, endDate := d, status := st, reason := "leave" }

/-- `ctx0` after persisting `reqDays d st`. -/
def ctxAfter (d : Int) (st : LeaveStatus) : AppDbContext :=
  { employees := [empAlex, mgrMorgan], leaveRequests := [reqDays d st], nextId := 2 }

/-! ## Claim C1 -/

/-- Claim C1 (amended): a `createRequest` call whose employee exists and whose
`startDate` equals `endDate` does not create a single-day request; it fails
with the `InvalidRange` error ("End date must be after start date"), because
the code accepts only `startDate` strictly before `endDate`. -/
theorem createRequest_equal_dates_invalid_range (today : Int) (ctx : AppDbContext)
    (dto : CreateLeaveRequestDto)
    (hemp : (findEmployee ctx dto.employeeId).isSome = true)
    (heq : dto.startDate = dto.endDate) :
    createLeaveRequest today ctx dto
      = .error (.BadRequest "End date must be after start date") := by
  unfold createLeaveRequest
  cases hfind : findEmployee ctx dto.employeeId with
  | none => rw [hfind] at hemp; cases hemp
  | some e => simp [heq, le_refl]

/-- Witness for C1's amended theorem: in the seed store, a request for day 5
to day 5 by employee 1 fails with the range error. -/
theorem createRequest_equal_dates_invalid_range_witness :
    createLeaveRequest 0 ctx0 { employeeId := 1, startDate := 5, endDate := 5, reason := "one day" }
      = .error (.BadRequest "End date must be after start date") :=
  createRequest_equal_dates_invalid_range 0 ctx0
    { employeeId := 1, startDate := 5, endDate := 5, reason := "one day" } rfl rfl

/-- Counterexample to C1 as stated: employee 1 exists, `startDate = endDate = 5`,
the start is not before today (day 0), and no Approved request overlaps (the
store has no requests at all) — yet the call fails instead of creating a
duration-1 request. -/
theorem createRequest_single_day_cex :
    (findEmployee ctx0 1).isSome = true ∧
    overlapsApproved ctx0 { employeeId := 1, startDate := 5, endDate := 5, reason := "one day" } = false ∧
    createLeaveRequest 0 ctx0 { employeeId := 1, startDate := 5, endDate := 5, reason := "one day" }
      = .error (.BadRequest "End date must be after start date") :=
  ⟨rfl, rfl, rfl⟩

/-! ## Claim C3 -/

/-- Claim C3: every successfully created request keeps the submitted dates,
and its initial status is `Rejected` exactly when the inclusive duration
`(endDate - startDate) + 1` exceeds 15 days, `Pending` otherwise. -/
theorem createRequest_duration_status (today : Int) (ctx : AppDbContext)
    (dto : CreateLeaveRequestDto) (ctx' : AppDbContext) (r : LeaveRequest)
    (h : createLeaveRequest today ctx dto = .ok (ctx', r)) :
    r.startDate = dto.startDate ∧ r.endDate = dto.endDate ∧
    r.status = (if (r.endDate - r.startDate) + 1 > 15
                then LeaveStatus.Rejected else LeaveStatus.Pending) := by
  unfold createLeaveRequest at h
  cases hfind : findEmployee ctx dto.employeeId with
  | none => rw [hfind] at h; cases h
  | some e =>
    rw [hfind] at h
    simp only at h
    split at h
    · cases h
    · split at h
      · cases h
      · split at h
        · cases h
        · rw [Except.ok.injEq, Prod.mk.injEq] at h
          obtain ⟨-, hr⟩ := h
          subst hr
          refine ⟨rfl, rfl, ?_⟩
          simp only

/-- Witness for C3: from the seed store on day 0, a request for days 0..14
(duration 15) is created `Pending`, and one for days 0..15 (duration 16) is
created `Rejected`; both keep their submitted dates and match the duration
rule. -/
theorem createRequest_duration_status_witness :
    ((reqDays 14 LeaveStatus.Pending).startDate = (dtoDays 14).startDate ∧
     (reqDays 14 LeaveStatus.Pending).endDate = (dtoDays 14).endDate ∧
     (reqDays 14 LeaveStatus.Pending).status
       = (if ((reqDays 14 LeaveStatus.Pending).endDate - (reqDays 14 LeaveStatus.Pending).startDate) + 1 > 15
          then LeaveStatus.Rejected else LeaveStatus.Pending)) ∧
    ((reqDays 15 LeaveStatus.Rejected).startDate = (dtoDays 15).startDate ∧
     (reqDays 15 LeaveStatus.Rejected).endDate = (dtoDays 15).endDate ∧
     (reqDays 15 LeaveStatus.Rejected).status
       = (if ((reqDays 15 LeaveStatus.Rejected).endDate - (reqDays 15 LeaveStatus.Rejected).startDate) + 1 > 15
          then LeaveStatus.Rejected else LeaveStatus.Pending)) :=
  ⟨createRequest_duration_status 0 ctx0 (dtoDays 14)
      (ctxAfter 14 LeaveStatus.Pending) (reqDays 14 LeaveStatus.Pending) rfl,
   createRequest_duration_status 0 ctx0 (dtoDays 15)
      (ctxAfter 15 LeaveStatus.Rejected) (reqDays 15 LeaveStatus.Rejected) rfl⟩

/-! ## Claim C4 -/

/-- The boolean overlap query holds exactly when some stored request of the
same employee is `Approved` and its closed interval meets the new range. -/
theorem overlapsApproved_iff (ctx : AppDbContext) (dto : CreateLeaveRequestDto) :
    overlapsApproved ctx dto = true ↔
      ∃ lr ∈ ctx.leaveRequests, lr.employeeId = dto.employeeId ∧
        lr.status = LeaveStatus.Approved ∧
        lr.startDate ≤ dto.endDate ∧ dto.startDate ≤ lr.endDate := by
  unfold overlapsApproved
  rw [List.any_eq_true]
  constructor
  · rintro ⟨lr, hmem, hp⟩
    simp only [Bool.and_eq_true, beq_iff_eq, decide_eq_true_eq, ge_iff_le] at hp
    exact ⟨lr, hmem, hp.1.1.1, hp.1.1.2, hp.1.2, hp.2⟩
  · rintro ⟨lr, hmem, h1, h2, h3, h4⟩
    refine ⟨lr, hmem, ?_⟩
    simp only [Bool.and_eq_true, beq_iff_eq, decide_eq_true_eq, ge_iff_le]
    exact ⟨⟨⟨h1, h2⟩, h3⟩, h4⟩

/-- Claim C4: when the employee exists, the range is valid and the start is
not in the past, creation fails with the overlap error exactly when some
existing `Approved` request of the same employee intersects the new closed
range; `Pending`/`Rejected` overlaps and other employees' requests do not
trigger it. -/
theorem createRequest_overlap_iff (today : Int) (ctx : AppDbContext)
    (dto : CreateLeaveRequestDto)
    (hemp : (findEmployee ctx dto.employeeId).isSome = true)
    (hrange : dto.startDate < dto.endDate)
    (hpast : today ≤ dto.startDate) :
    (createLeaveRequest today ctx dto
        = .error (.BadRequest "Overlapping approved leave exists for this period")
      ↔ ∃ lr ∈ ctx.leaveRequests, lr.employeeId = dto.employeeId ∧
          lr.status = LeaveStatus.Approved ∧
          lr.startDate ≤ dto.endDate ∧ dto.startDate ≤ lr.endDate) := by
  rw [← overlapsApproved_iff]
  unfold createLeaveRequest
  cases hfind : findEmployee ctx dto.employeeId with
  | none => rw [hfind] at hemp; cases hemp
  | some e =>
    simp only
    rw [if_neg (not_le.mpr hrange), if_neg (not_lt.mpr hpast)]
    by_cases hov : overlapsApproved ctx dto = true
    · simp [hov]
    · simp [hov]

/-- Witness for C4: in a store where employee 1 has an `Approved` request for
days 10..12, a new request for days 11..13 hits the overlap error, and the
overlapping stored request is exhibited. -/
theorem createRequest_overlap_iff_witness :
    createLeaveRequest 0 (ctxAfter 3 LeaveStatus.Approved)
        { employeeId := 1, startDate := 2, endDate := 5, reason := "again" }
      = .error (.BadRequest "Overlapping approved leave exists for this period") :=
  (createRequest_overlap_iff 0 (ctxAfter 3 LeaveStatus.Approved)
      { employeeId := 1, startDate := 2, endDate := 5, reason := "again" }
      rfl (by decide) (by decide)).mpr
    ⟨reqDays 3 LeaveStatus.Approved, by decide, rfl, rfl, by decide, by decide⟩

/-! ## Claim C2 -/

/-- A store in which employee 1 holds request 1, currently `Approved`, for
days 10..12. -/
def reqApproved10 : LeaveRequest :=
  { id := 1, employeeId := 1, startDate := 10, endDate := 12,
    status := LeaveStatus.Approved, reason := "trip" }

/-- The seed store holding `reqApproved10`. -/
def ctxApproved : AppDbContext :=
  { employees := [empAlex, mgrMorgan], leaveRequests := [reqApproved10], nextId := 2 }

/-- Claim C2 (code bug): the manager's status update accepts the target
status value "Pending" — `Enum.TryParse` parses any `LeaveStatus` member name
— and sets the request to `Pending`, although the endpoint's own error
message says the status must be 'Approved' or 'Rejected'. At the concrete
failing input (manager 2, request 1, body "Pending") the call succeeds
instead of failing with the invalid-status error. -/
theorem updateLeaveStatus_accepts_pending :
    parseLeaveStatus "Pending" = some LeaveStatus.Pending ∧
    updateLeaveStatus ctxApproved 1 2 "Pending"
      = .ok { ctxApproved with
                leaveRequests := [{ reqApproved10 with status := LeaveStatus.Pending }] } :=
  ⟨rfl, rfl⟩

/-! ## Claim C5 -/

/-- Looking up a request by id after `setRequestStatus` finds the same record
with only its status replaced. -/
theorem find?_setRequestStatus (l : List LeaveRequest) (id : Int)
    (st : LeaveStatus) (r : LeaveRequest)
    (h : l.find? (fun lr => lr.id == id) = some r) :
    (setRequestStatus l id st).find? (fun lr => lr.id == id)
      = some { r with status := st } := by
  induction l with
  | nil => cases h
  | cons a l ih =>
    rw [List.find?_cons] at h
    unfold setRequestStatus
    rw [List.map_cons, List.find?_cons]
    by_cases ha : (a.id == id) = true
    · rw [ha] at h
      simp only at h
      rw [Option.some.injEq] at h
      subst h
      rw [if_pos ha]
      have hid : (({ a with status := st } : LeaveRequest).id == id) = true := ha
      rw [hid]
    · rw [Bool.not_eq_true] at ha
      rw [ha] at h
      simp only at h
      rw [if_neg (by rw [ha]; exact Bool.false_ne_true), ha]
      exact ih h

/-- Claim C5: when the actor is a `Manager`, the request exists and the
target status parses, the update succeeds and sets exactly that status on the
stored request — whatever its current status and duration; no duration or
overlap re-check constrains the result. -/
theorem updateLeaveStatus_sets_unconditionally (ctx : AppDbContext)
    (id actorId : Int) (s : String) (m : Employee) (r : LeaveRequest)
    (st : LeaveStatus)
    (hm : findEmployee ctx actorId = some m)
    (hrole : m.role = Role.Manager)
    (hr : findLeaveRequest ctx id = some r)
    (hs : parseLeaveStatus s = some st) :
    updateLeaveStatus ctx id actorId s
      = .ok { ctx with leaveRequests := setRequestStatus ctx.leaveRequests id st } ∧
    findLeaveRequest
        { ctx with leaveRequests := setRequestStatus ctx.leaveRequests id st } id
      = some { r with status := st } := by
  constructor
  · unfold updateLeaveStatus
    rw [hm]
    simp only [hrole, ne_eq, not_true_eq_false, if_false]
    rw [hr, hs]
    simp only
    split
    · rfl
    · rfl
  · exact find?_setRequestStatus ctx.leaveRequests id st r hr

/-- Witness for C5: in a store where request 1 (days 0..19, duration 20) was
auto-rejected, manager 2 setting "Approved" succeeds and the stored request
becomes `Approved` — the manager override of an auto-rejection. -/
theorem updateLeaveStatus_sets_unconditionally_witness :
    updateLeaveStatus (ctxAfter 19 LeaveStatus.Rejected) 1 2 "Approved"
      = .ok { ctxAfter 19 LeaveStatus.Rejected with
                leaveRequests :=
                  setRequestStatus (ctxAfter 19 LeaveStatus.Rejected).leaveRequests 1
                    LeaveStatus.Approved } ∧
    findLeaveRequest
        { ctxAfter 19 LeaveStatus.Rejected with
            leaveRequests :=
              setRequestStatus (ctxAfter 19 LeaveStatus.Rejected).leaveRequests 1
                LeaveStatus.Approved } 1
      = some { reqDays 19 LeaveStatus.Rejected with status := LeaveStatus.Approved } :=
  updateLeaveStatus_sets_unconditionally (ctxAfter 19 LeaveStatus.Rejected)
    1 2 "Approved" mgrMorgan (reqDays 19 LeaveStatus.Rejected)
    LeaveStatus.Approved rfl rfl rfl rfl

/-! ## Claim C6 -/

/-- Claim C6: the status update answers `Unauthorized` exactly when the actor
id resolves to no employee or to one whose role is not `Manager`; the check
comes before the request lookup, so the equivalence holds whether or not the
request id exists, and an error outcome carries no store mutation. -/
theorem updateLeaveStatus_unauthorized_iff (ctx : AppDbContext)
    (id actorId : Int) (s : String) :
    updateLeaveStatus ctx id actorId s = .error .Unauthorized
      ↔ ∀ m, findEmployee ctx actorId = some m → m.role ≠ Role.Manager := by
  unfold updateLeaveStatus
  cases hm : findEmployee ctx actorId with
  | none =>
    simp only
    constructor
    · intro _ m hsome
      cases hsome
    · intro _
      trivial
  | some m =>
    simp only
    by_cases hrole : m.role = Role.Manager
    · rw [if_neg (by simp [hrole])]
      constructor
      · intro h
        cases hreq : findLeaveRequest ctx id with
        | none => rw [hreq] at h; cases h
        | some r =>
          rw [hreq] at h
          cases hs : parseLeaveStatus s with
          | none => rw [hs] at h; cases h
          | some st =>
            rw [hs] at h
            simp only at h
            split at h
            · cases h
            · cases h
      · intro hall
        exact absurd hrole (hall m rfl)
    · rw [if_pos hrole]
      constructor
      · intro _ m' hsome
        rw [Option.some.injEq] at hsome
        subst hsome
        exact hrole
      · intro _
        rfl

/-! ## Claim C7 -/

/-- Cancellation of an absent request id answers `Unauthorized`. -/
theorem cancel_absent (ctx : AppDbContext) (id employeeId : Int)
    (hreq : findLeaveRequest ctx id = none) :
    cancelLeaveRequest ctx id employeeId = .error .Unauthorized := by
  unfold cancelLeaveRequest
  rw [hreq]

/-- Cancellation of someone else's request answers `Unauthorized`. -/
theorem cancel_found_not_owner (ctx : AppDbContext) (id employeeId : Int)
    (r : LeaveRequest) (hreq : findLeaveRequest ctx id = some r)
    (hown : r.employeeId ≠ employeeId) :
    cancelLeaveRequest ctx id employeeId = .error .Unauthorized := by
  unfold cancelLeaveRequest
  rw [hreq]
  simp only
  rw [if_pos hown]

/-- The owner cancelling a non-`Pending` request gets the invalid-state
error. -/
theorem cancel_owner_not_pending (ctx : AppDbContext) (id employeeId : Int)
    (r : LeaveRequest) (hreq : findLeaveRequest ctx id = some r)
    (hown : r.employeeId = employeeId) (hst : r.status ≠ LeaveStatus.Pending) :
    cancelLeaveRequest ctx id employeeId
      = .error (.BadRequest "Only pending requests can be canceled") := by
  unfold cancelLeaveRequest
  rw [hreq]
  simp only
  rw [if_neg (not_not_intro hown), if_pos hst]

/-- The owner cancelling a `Pending` request succeeds; the record is removed
from the store. -/
theorem cancel_owner_pending (ctx : AppDbContext) (id employeeId : Int)
    (r : LeaveRequest) (hreq : findLeaveRequest ctx id = some r)
    (hown : r.employeeId = employeeId) (hst : r.status = LeaveStatus.Pending) :
    cancelLeaveRequest ctx id employeeId
      = .ok { ctx with leaveRequests := ctx.leaveRequests.eraseP (fun lr => lr.id == id) } := by
  unfold cancelLeaveRequest
  rw [hreq]
  simp only
  rw [if_neg (not_not_intro hown), if_neg (not_not_intro hst)]

/-- Claim C7: cancellation answers the identical `Unauthorized` error exactly
when the request is absent or owned by someone else; for the owner it fails
with the invalid-state error exactly when the request is not `Pending`, and
succeeds — removing the stored record — exactly when it is `Pending`. Error
outcomes carry no store mutation. -/
theorem cancelLeaveRequest_spec (ctx : AppDbContext) (id employeeId : Int) :
    (cancelLeaveRequest ctx id employeeId = .error .Unauthorized
       ↔ ∀ r, findLeaveRequest ctx id = some r → r.employeeId ≠ employeeId) ∧
    (∀ r, findLeaveRequest ctx id = some r → r.employeeId = employeeId →
       ((r.status ≠ LeaveStatus.Pending ↔
           cancelLeaveRequest ctx id employeeId
             = .error (.BadRequest "Only pending requests can be canceled")) ∧
        (r.status = LeaveStatus.Pending ↔
           cancelLeaveRequest ctx id employeeId
             = .ok { ctx with
                       leaveRequests := ctx.leaveRequests.eraseP (fun lr => lr.id == id) }))) := by
  constructor
  · constructor
    · intro h r hsome hown
      by_cases hst : r.status = LeaveStatus.Pending
      · rw [cancel_owner_pending ctx id employeeId r hsome hown hst] at h
        exact Except.noConfusion h
      · rw [cancel_owner_not_pending ctx id employeeId r hsome hown hst] at h
        exact ApiError.noConfusion (Except.error.inj h)
    · intro hall
      cases hreq : findLeaveRequest ctx id with
      | none => exact cancel_absent ctx id employeeId hreq
      | some r => exact cancel_found_not_owner ctx id employeeId r hreq (hall r hreq)
  · intro r hsome hown
    constructor
    · constructor
      · intro hst
        exact cancel_owner_not_pending ctx id employeeId r hsome hown hst
      · intro h hst
        rw [cancel_owner_pending ctx id employeeId r hsome hown hst] at h
        exact Except.noConfusion h
    · constructor
      · intro hst
        exact cancel_owner_pending ctx id employeeId r hsome hown hst
      · intro h
        by_contra hst
        rw [cancel_owner_not_pending ctx id employeeId r hsome hown hst] at h
        exact Except.noConfusion h

/-! ## Claim C8 -/

/-- A successful creation appends exactly the new record, whose dates come
from the dto and satisfy `startDate < endDate`. -/
theorem create_ok_shape (today : Int) (ctx : AppDbContext)
    (dto : CreateLeaveRequestDto) (ctx' : AppDbContext) (r : LeaveRequest)
    (h : createLeaveRequest today ctx dto = .ok (ctx', r)) :
    ctx'.leaveRequests = ctx.leaveRequests ++ [r] ∧ r.startDate < r.endDate := by
  unfold createLeaveRequest at h
  cases hfind : findEmployee ctx dto.employeeId with
  | none => rw [hfind] at h; cases h
  | some e =>
    rw [hfind] at h
    simp only at h
    split at h
    · cases h
    · rename_i hge
      split at h
      · cases h
      · split at h
        · cases h
        · rw [Except.ok.injEq, Prod.mk.injEq] at h
          obtain ⟨hctx, hr⟩ := h
          subst hctx
          subst hr
          exact ⟨rfl, not_le.mp hge⟩

/-- A successful status update rewrites the stored requests through
`setRequestStatus` for some parsed status. -/
theorem update_ok_shape (ctx : AppDbContext) (id actorId : Int) (s : String)
    (ctx' : AppDbContext) (h : updateLeaveStatus ctx id actorId s = .ok ctx') :
    ∃ st, ctx'.leaveRequests = setRequestStatus ctx.leaveRequests id st := by
  unfold updateLeaveStatus at h
  cases hm : findEmployee ctx actorId with
  | none => rw [hm] at h; cases h
  | some m =>
    rw [hm] at h
    simp only at h
    split at h
    · cases h
    · cases hr : findLeaveRequest ctx id with
      | none => rw [hr] at h; cases h
      | some r =>
        rw [hr] at h
        cases hs : parseLeaveStatus s with
        | none => rw [hs] at h; cases h
        | some st =>
          rw [hs] at h
          simp only at h
          refine ⟨st, ?_⟩
          split at h
          · rw [Except.ok.injEq] at h
            subst h
            rfl
          · rw [Except.ok.injEq] at h
            subst h
            rfl

/-- A successful cancellation erases the stored record with the given id. -/
theorem cancel_ok_shape (ctx : AppDbContext) (id employeeId : Int)
    (ctx' : AppDbContext) (h : cancelLeaveRequest ctx id employeeId = .ok ctx') :
    ctx'.leaveRequests = ctx.leaveRequests.eraseP (fun lr => lr.id == id) := by
  unfold cancelLeaveRequest at h
  cases hr : findLeaveRequest ctx id with
  | none => rw [hr] at h; cases h
  | some r =>
    rw [hr] at h
    simp only at h
    split at h
    · cases h
    · split at h
      · cases h
      · rw [Except.ok.injEq] at h
        subst h
        rfl

/-- A successful permanent delete erases the stored record with the given
id. -/
theorem delete_ok_shape (ctx : AppDbContext) (id managerId : Int)
    (ctx' : AppDbContext) (h : permanentlyDeleteRequest ctx id managerId = .ok ctx') :
    ctx'.leaveRequests = ctx.leaveRequests.eraseP (fun lr => lr.id == id) := by
  unfold permanentlyDeleteRequest at h
  cases hm : findEmployee ctx managerId with
  | none => rw [hm] at h; cases h
  | some m =>
    rw [hm] at h
    simp only at h
    split at h
    · cases h
    · cases hr : findLeaveRequest ctx id with
      | none => rw [hr] at h; cases h
      | some r =>
        rw [hr] at h
        simp only at h
        rw [Except.ok.injEq] at h
        subst h
        rfl

/-- Every record of `setRequestStatus l id st` has the dates of a record of
`l`: the rewrite touches only the status field. -/
theorem mem_setRequestStatus (l : List LeaveRequest) (id : Int)
    (st : LeaveStatus) (x : LeaveRequest) (hx : x ∈ setRequestStatus l id st) :
    ∃ y ∈ l, x.startDate = y.startDate ∧ x.endDate = y.endDate := by
  unfold setRequestStatus at hx
  rw [List.mem_map] at hx
  obtain ⟨y, hy, hxy⟩ := hx
  subst hxy
  refine ⟨y, hy, ?_, ?_⟩ <;> split <;> rfl

/-- The invariant of §3 of the spec: every persisted request has
`startDate ≤ endDate`. -/
def RequestDatesWF (ctx : AppDbContext) : Prop :=
  ∀ lr ∈ ctx.leaveRequests, lr.startDate ≤ lr.endDate

/-- One successful operation of the lifecycle engine: create, status update,
cancel, or permanent delete. -/
inductive Step : AppDbContext → AppDbContext → Prop where
  | create (today : Int) (ctx : AppDbContext) (dto : CreateLeaveRequestDto)
      (ctx' : AppDbContext) (r : LeaveRequest)
      (h : createLeaveRequest today ctx dto = .ok (ctx', r)) : Step ctx ctx'
  | setStatus (ctx : AppDbContext) (id actorId : Int) (s : String)
      (ctx' : AppDbContext)
      (h : updateLeaveStatus ctx id actorId s = .ok ctx') : Step ctx ctx'
  | cancel (ctx : AppDbContext) (id employeeId : Int) (ctx' : AppDbContext)
      (h : cancelLeaveRequest ctx id employeeId = .ok ctx') : Step ctx ctx'
  | delete (ctx : AppDbContext) (id managerId : Int) (ctx' : AppDbContext)
      (h : permanentlyDeleteRequest ctx id managerId = .ok ctx') : Step ctx ctx'

/-- Store states reachable through the operations. -/
def Reachable : AppDbContext → AppDbContext → Prop :=
  Relation.ReflTransGen Step

/-- One step preserves the date invariant. -/
theorem step_preserves_dates_wf (ctx ctx' : AppDbContext)
    (hwf : RequestDatesWF ctx) (hstep : Step ctx ctx') : RequestDatesWF ctx' := by
  cases hstep with
  | create today ctx dto ctx' r h =>
    obtain ⟨hshape, hlt⟩ := create_ok_shape today ctx dto ctx' r h
    intro lr hmem
    rw [hshape, List.mem_append] at hmem
    cases hmem with
    | inl hm => exact hwf lr hm
    | inr hm =>
      rw [List.mem_singleton] at hm
      subst hm
      exact le_of_lt hlt
  | setStatus ctx id actorId s ctx' h =>
    obtain ⟨st, hshape⟩ := update_ok_shape ctx id actorId s ctx' h
    intro lr hmem
    rw [hshape] at hmem
    obtain ⟨y, hy, h1, h2⟩ := mem_setRequestStatus ctx.leaveRequests id st lr hmem
    rw [h1, h2]
    exact hwf y hy
  | cancel ctx id employeeId ctx' h =>
    intro lr hmem
    rw [cancel_ok_shape ctx id employeeId ctx' h] at hmem
    exact hwf lr ((List.eraseP_sublist ctx.leaveRequests).subset hmem)
  | delete ctx id managerId ctx' h =>
    intro lr hmem
    rw [delete_ok_shape ctx id managerId ctx' h] at hmem
    exact hwf lr ((List.eraseP_sublist ctx.leaveRequests).subset hmem)

/-- Claim C8: every store reachable through the operations from one whose
persisted requests all satisfy `startDate ≤ endDate` again satisfies it:
creation establishes the (strict) inequality, the status update rewrites
only the status field, and cancel and permanent delete only remove
records. -/
theorem reachable_preserves_dates_wf (ctx ctx' : AppDbContext)
    (hre : Reachable ctx ctx') (hwf : RequestDatesWF ctx) :
    RequestDatesWF ctx' := by
  have hre' : Relation.ReflTransGen Step ctx ctx' := hre
  clear hre
  induction hre' with
  | refl => exact hwf
  | tail _ hstep ih => exact step_preserves_dates_wf _ _ ih hstep

/-- Witness for C8: from the empty seed store, one create step reaches the
store holding the pending request for days 0..14, and the invariant holds
there. -/
theorem reachable_preserves_dates_wf_witness :
    RequestDatesWF (ctxAfter 14 LeaveStatus.Pending) :=
  reachable_preserves_dates_wf ctx0 (ctxAfter 14 LeaveStatus.Pending)
    (Relation.ReflTransGen.single
      (Step.create 0 ctx0 (dtoDays 14) (ctxAfter 14 LeaveStatus.Pending)
        (reqDays 14 LeaveStatus.Pending) rfl))
    (fun lr hmem => absurd hmem (List.not_mem_nil lr))

/-! ## Claim C9 -/

/-- Ordered by start date descending: each element's start date is at least
the start date of every later element. -/
def SortedByStartDesc (l : List LeaveRequest) : Prop :=
  l.Pairwise (fun a b => b.startDate ≤ a.startDate)

/-- The ordering pass returns a permutation of its input. -/
theorem orderBy_perm (l : List LeaveRequest) :
    (orderByStartDateDescending l).Perm l :=
  List.mergeSort_perm l _

/-- The ordering pass sorts by start date descending. -/
theorem orderBy_sorted (l : List LeaveRequest) :
    SortedByStartDesc (orderByStartDateDescending l) := by
  have htrans : ∀ a b c : LeaveRequest,
      decide (b.startDate ≤ a.startDate) = true →
      decide (c.startDate ≤ b.startDate) = true →
      decide (c.startDate ≤ a.startDate) = true := by
    intro a b c hab hbc
    rw [decide_eq_true_eq] at hab hbc ⊢
    exact le_trans hbc hab
  have htotal : ∀ a b : LeaveRequest,
      (decide (b.startDate ≤ a.startDate) || decide (a.startDate ≤ b.startDate)) = true := by
    intro a b
    rw [Bool.or_eq_true, decide_eq_true_eq, decide_eq_true_eq]
    exact le_total b.startDate a.startDate
  have h := List.sorted_mergeSort htrans htotal l
  exact h.imp (fun hab => of_decide_eq_true hab)

/-- The view the spec's list/query step describes, stated from the spec's
words for comparison with `getLeaveRequests`: no caller id or a `Manager`
caller sees every request; an `Employee` caller sees only their own. -/
def specListView (ctx : AppDbContext) (q : Option Int) : List LeaveRequest :=
  match q with
  | none => ctx.leaveRequests
  | some eid =>
    match findEmployee ctx eid with
    | none => []
    | some e =>
      match e.role with
      | Role.Manager => ctx.leaveRequests
      | Role.Employee => ctx.leaveRequests.filter (fun lr => lr.employeeId == eid)

/-- Claim C9: whenever the caller id is absent or resolves to an employee,
the query succeeds, and the returned list is ordered by start date
descending and holds exactly the spec's view — every request for no caller
id or a `Manager` caller, only the caller's own requests for an `Employee`
caller. -/
theorem getLeaveRequests_spec (ctx : AppDbContext) (q : Option Int)
    (hq : ∀ eid, q = some eid → (findEmployee ctx eid).isSome = true) :
    ∃ l, getLeaveRequests ctx q = .ok l ∧ SortedByStartDesc l ∧
      l.Perm (specListView ctx q) := by
  cases q with
  | none =>
    exact ⟨orderByStartDateDescending ctx.leaveRequests, rfl,
           orderBy_sorted ctx.leaveRequests, orderBy_perm ctx.leaveRequests⟩
  | some eid =>
    cases hfind : findEmployee ctx eid with
    | none =>
      have hsome := hq eid rfl
      rw [hfind] at hsome
      cases hsome
    | some e =>
      unfold getLeaveRequests specListView
      simp only
      rw [hfind]
      simp only
      cases hrole : e.role with
      | Manager =>
        rw [if_pos (by decide)]
        exact ⟨orderByStartDateDescending ctx.leaveRequests, rfl,
               orderBy_sorted ctx.leaveRequests, orderBy_perm ctx.leaveRequests⟩
      | Employee =>
        rw [if_neg (by decide)]
        exact ⟨orderByStartDateDescending
                 (ctx.leaveRequests.filter (fun lr => lr.employeeId == eid)), rfl,
               orderBy_sorted (ctx.leaveRequests.filter (fun lr => lr.employeeId == eid)),
               orderBy_perm (ctx.leaveRequests.filter (fun lr => lr.employeeId == eid))⟩

/-- Witness for C9: in the store holding employee 1's approved request,
employee 1's own query succeeds with a sorted permutation of the spec's
view. -/
theorem getLeaveRequests_spec_witness :
    ∃ l, getLeaveRequests ctxApproved (some 1) = .ok l ∧ SortedByStartDesc l ∧
      l.Perm (specListView ctxApproved (some 1)) :=
  getLeaveRequests_spec ctxApproved (some 1)
    (fun eid h => by rw [Option.some.injEq] at h; subst h; rfl)

/-! ## Claim C10 -/

/-- Claim C10: a query that supplies a caller id which resolves to no
employee fails with `NotFound` ("Employee not found") — no list of requests,
empty or store-wide, is returned. -/
theorem getLeaveRequests_unknown_caller (ctx : AppDbContext) (eid : Int)
    (h : findEmployee ctx eid = none) :
    getLeaveRequests ctx (some eid) = .error (.NotFound "Employee not found") := by
  unfold getLeaveRequests
  simp only
  rw [h]

/-- Witness for C10: the seed store has no employee 99, and the query with
caller id 99 answers the not-found error. -/
theorem getLeaveRequests_unknown_caller_witness :
    getLeaveRequests ctx0 (some 99) = .error (.NotFound "Employee not found") :=
  getLeaveRequests_unknown_caller ctx0 99 rfl

end LeaveRequestBackend
